import Mathlib

/-!
Verification of the guilty-spark endpoint-prediction pipeline (`sparks.py`).

The repository is a single Python file implementing: path tokenization and
normalization, order-k Markov chain construction over token sequences,
candidate generation, Laplace-smoothed probability scoring, threshold
filtering, and HTTP validation.  This file is a shallow embedding of those
functions, with each Lean definition translated from the corresponding
Python function, followed by theorems settling the specification claims.

Modelling conventions:
* Python `dict` / `collections.Counter` objects are modelled as
  insertion-ordered association lists (`List (key × value)`), which captures
  both the mapping and Python's insertion-order iteration semantics.
* `defaultdict(Counter)` subscript access `chain[key]`, which inserts an
  empty `Counter` when `key` is absent (autovivification), is modelled by
  `chainGetOrCreate`, which returns the looked-up counter together with the
  possibly-extended chain; the scorer threads this state exactly as the
  Python object is mutated in place.
* Python floats are modelled by exact rational arithmetic (`ℚ`).
* The HTTP request of `validate_candidate` is abstracted by its outcome:
  `some status` for a response, `none` for any raised exception
  (timeout, connection error, DNS failure, TLS failure are all caught by
  the single bare `except Exception` in the source).
-/

/-- A `Counter` is Python's `collections.Counter` restricted to `String`
keys: an insertion-ordered association list from token to count. -/
abbrev Counter : Type := List (String × Nat)

/-- A `Context` is a tuple of tokens used as a Markov-chain key
(the Python code uses `tuple(...)`). -/
abbrev Context : Type := List String

/-- The Markov chain: Python's `defaultdict(Counter)`, an insertion-ordered
association list from `Context` to `Counter`. -/
abbrev Chain : Type := List (Context × Counter)

/-- Python `str.strip("/")` on the character list of a path: remove all
leading and trailing `'/'` characters. -/
def stripSlashList (cs : List Char) : List Char :=
  ((cs.dropWhile (fun c => c = '/')).reverse.dropWhile (fun c => c = '/')).reverse

/-- Python `str.split("/")` on a character list: split at every `'/'`,
keeping empty segments (they are filtered out by `tokenize`).  `cur` is the
reversed current segment being accumulated. -/
def splitOnSlash : List Char → List Char → List String
  | [], cur => [String.mk cur.reverse]
  | c :: rest, cur =>
      if c = '/' then String.mk cur.reverse :: splitOnSlash rest []
      else splitOnSlash rest (c :: cur)

/-- Source function `tokenize` (sparks.py lines 10-12):
`[token for token in endpoint.strip("/").split("/") if token]`. -/
def tokenize (endpoint : String) : List String :=
  (splitOnSlash (stripSlashList endpoint.data) []).filter (fun t => t ≠ "")

/-- The character class of the source regex `[a-f0-9\-]{36}` in
`normalize_token` (sparks.py line 18): lowercase hex digit or hyphen.
Note the source class contains only the lowercase range `a-f`. -/
def isLowerHexOrDash (c : Char) : Bool :=
  c.isDigit || ('a' ≤ c && c ≤ 'f') || c == '-'

/-- Claim-side character class, modelled from the spec words
"hex digits and hyphens" read as case-insensitive hex digits: the claim
explicitly includes the uppercase range `A-F`.  Used only to compare the
spec's wording with the source's `isLowerHexOrDash`. -/
def specHexDigit (c : Char) : Bool :=
  c.isDigit || ('a' ≤ c && c ≤ 'f') || ('A' ≤ c && c ≤ 'F')

/-- Source function `normalize_token` (sparks.py lines 14-20):
`re.fullmatch(r'\d+', token)` succeeds iff the token is nonempty and all
characters are digits; `re.fullmatch(r'[a-f0-9\-]{36}', token)` succeeds
iff the token has exactly 36 characters, all in the class. -/
def normalize_token (t : String) : String :=
  if t.data ≠ [] ∧ ∀ c ∈ t.data, c.isDigit then "<id>"
  else if t.data.length = 36 ∧ ∀ c ∈ t.data, isLowerHexOrDash c then "<uuid>"
  else t

/-- Source function `extract_normalized_tokens` (sparks.py lines 22-25). -/
def extract_normalized_tokens (endpoints : List String) : List (List String) :=
  (endpoints.map tokenize).map (fun tokens => tokens.map normalize_token)

/-- The padding of one token sequence in `build_markov_chain`
(sparks.py line 31): `["<START>"] * order + tokens + ["<END>"]`. -/
def padTokens (order : Nat) (tokens : List String) : List String :=
  List.replicate order "<START>" ++ tokens ++ ["<END>"]

/-- The window enumeration shared by `build_markov_chain` (lines 32-35) and
the scoring loop of `candidate_probability` (lines 81-86): for each
`i in range(len(tokens) - order)` the pair
`(tuple(tokens[i:i+order]), tokens[i+order])`. -/
def windowsOf (order : Nat) : List String → List (Context × String)
  | [] => []
  | t :: rest =>
      if h : order < (t :: rest).length then
        ((t :: rest).take order, (t :: rest).get ⟨order, h⟩) :: windowsOf order rest
      else []

/-- Source update `markov_chain[key][next_token] += 1`: increment a counter entry,
appending a fresh entry with count 1 when the key is absent (Python dict
insertion order: new keys go to the back). -/
def counterIncr : Counter → String → Counter
  | [], t => [(t, 1)]
  | (k, n) :: rest, t =>
      if k = t then (k, n + 1) :: rest else (k, n) :: counterIncr rest t

/-- One chain update `markov_chain[key][next_token] += 1` of
`build_markov_chain`: update the counter at `key`, appending a fresh entry
when `key` is absent. -/
def chainIncr : Chain → Context → String → Chain
  | [], key, t => [(key, counterIncr [] t)]
  | (k, cnt) :: rest, key, t =>
      if k = key then (k, counterIncr cnt t) :: rest
      else (k, cnt) :: chainIncr rest key t

/-- Process a list of (context, next-token) windows in order, incrementing
the chain for each: the inner loop of `build_markov_chain`. -/
def addWindows (ch : Chain) (ws : List (Context × String)) : Chain :=
  ws.foldl (fun c w => chainIncr c w.1 w.2) ch

/-- Source function `build_markov_chain` (sparks.py lines 27-36). -/
def build_markov_chain (token_sequences : List (List String)) (order : Nat) : Chain :=
  token_sequences.foldl
    (fun ch tokens => addWindows ch (windowsOf order (padTokens order tokens))) []

/-- Pure dict lookup `chain[key]` when the key is known to be present, and
the value of the comparison when it is not; `chainGet ch key = []` when
`key` is absent.  (The mutating defaultdict access is `chainGetOrCreate`.) -/
def chainGet : Chain → Context → Counter
  | [], _ => []
  | (k, cnt) :: rest, key => if k = key then cnt else chainGet rest key

/-- Python `key in chain` (which does not autovivify). -/
def chainContains (ch : Chain) (key : Context) : Bool :=
  ch.any (fun p => decide (p.1 = key))

/-- Python `Counter.__getitem__`: a missing key reads as 0 and is not inserted. -/
def counterGet : Counter → String → Nat
  | [], _ => 0
  | (k, n) :: rest, t => if k = t then n else counterGet rest t

/-- Python `sum(counter.values())`. -/
def counterTotal (cnt : Counter) : Nat :=
  (cnt.map Prod.snd).sum

/-- Stable insertion for `Counter.most_common`: place `p` before the first
entry whose count is at most `p`'s, so that, among equal counts, earlier
(first-seen) entries stay first. -/
def insertByCount (p : String × Nat) : List (String × Nat) → List (String × Nat)
  | [] => [p]
  | q :: rest => if q.2 ≤ p.2 then p :: q :: rest else q :: insertByCount p rest

/-- Stable sort by descending count. -/
def sortByCountDesc : List (String × Nat) → List (String × Nat)
  | [] => []
  | p :: rest => insertByCount p (sortByCountDesc rest)

/-- Python `Counter.most_common(n)`: entries sorted by count descending, ties kept
in insertion order, truncated to `n`. -/
def most_common (cnt : Counter) (n : Nat) : List (String × Nat) :=
  (sortByCountDesc cnt).take n

/-- Source function `predict_next_tokens` (sparks.py lines 38-43). -/
def predict_next_tokens (ch : Chain) (current_tokens : List String) (top_n : Nat) :
    List (String × Nat) :=
  if chainContains ch current_tokens then most_common (chainGet ch current_tokens) top_n
  else []

/-- The lookup context of `generate_candidates` (sparks.py line 53):
`tokens[max(0, i - order + 1):i+1]`.  With truncated `Nat` subtraction,
`i + 1 - order` equals Python's `max(0, i - order + 1)`. -/
def lookupContext (tokens : List String) (i order : Nat) : List String :=
  (tokens.take (i + 1)).drop (i + 1 - order)

/-- The candidates emitted at one position `i` of one known sequence in
`generate_candidates` (sparks.py lines 54-62). -/
def candidatesAt (tokens : List String) (ch : Chain) (common_words : List String)
    (order i : Nat) : List String :=
  (predict_next_tokens ch (lookupContext tokens i order) 3).flatMap
    (fun p =>
      if p.1 = "<END>" then
        common_words.map
          (fun word => "/" ++ String.intercalate "/" (tokens.take (i + 1) ++ [word]))
      else ["/" ++ String.intercalate "/" (tokens.take (i + 1) ++ [p.1])])

/-- Source function `generate_candidates` (sparks.py lines 45-63), as the list of emitted
candidates (the Python `set` deduplicates; the claims under study concern
which lookup contexts are queried, not deduplication). -/
def generate_candidates (token_sequences : List (List String)) (ch : Chain)
    (common_words : List String) (order : Nat) : List String :=
  token_sequences.flatMap
    (fun tokens =>
      (List.range tokens.length).flatMap
        (fun i => candidatesAt tokens ch common_words order i))

/-- The defaultdict subscript `chain[key]` of `candidate_probability`
(sparks.py lines 84-85): return the counter at `key`, inserting `(key, [])`
at the back when absent, exactly as `defaultdict(Counter)` autovivifies. -/
def chainGetOrCreate : Chain → Context → Counter × Chain
  | [], key => ([], [(key, [])])
  | (k, cnt) :: rest, key =>
      if k = key then (cnt, (k, cnt) :: rest)
      else ((chainGetOrCreate rest key).1, (k, cnt) :: (chainGetOrCreate rest key).2)

/-- One iteration of the scoring loop of `candidate_probability`
(sparks.py lines 81-86): look up (and possibly autovivify) the context,
read `count_next` and `total_count`, and multiply the running probability
by `(count_next + alpha) / (total_count + alpha * vocab_size)`. -/
def scoreStep (V alpha : ℚ) (acc : ℚ × Chain) (w : Context × String) : ℚ × Chain :=
  ((acc.1 *
      (((counterGet (chainGetOrCreate acc.2 w.1).1 w.2 : ℚ) + alpha) /
        ((counterTotal (chainGetOrCreate acc.2 w.1).1 : ℚ) + alpha * V))),
    (chainGetOrCreate acc.2 w.1).2)

/-- Source function `candidate_probability` (sparks.py lines 65-87) with its state: the
returned probability together with the chain as mutated by defaultdict
autovivification.  `vocab_size` is taken as an explicit argument `V`, as in
every call from `main` (line 268); the `vocab_size is None` branch
recomputes `vocab_size (see `vocabOf`) and is not exercised by `main`. -/
def candidateProbabilityS (candidate : String) (ch : Chain) (order : Nat)
    (V alpha : ℚ) : ℚ × Chain :=
  (windowsOf order (padTokens order (tokenize candidate))).foldl
    (scoreStep V alpha) (1, ch)

/-- The probability returned by `candidate_probability`. -/
def candidate_probability (candidate : String) (ch : Chain) (order : Nat)
    (V alpha : ℚ) : ℚ :=
  (candidateProbabilityS candidate ch order V alpha).1

/-- The global vocabulary of `main` (sparks.py lines 249-252) and of the
`vocab_size is None` branch (lines 75-79): the set of distinct next-tokens
across all counters of the chain, as a deduplicated list. -/
def vocabOf (ch : Chain) : List String :=
  (ch.flatMap (fun p => p.2.map Prod.fst)).dedup

/-- Source expression `vocab_size = len(global_vocab)` (sparks.py line 252). -/
def vocab_size (ch : Chain) : Nat :=
  (vocabOf ch).length

/-- The smoothed factor contributed by window `w` against the (unmutated)
chain `ch`:
`(count(state, next) + alpha) / (total(state) + alpha * vocab_size)`. -/
def windowFactor (ch : Chain) (V alpha : ℚ) (w : Context × String) : ℚ :=
  ((counterGet (chainGet ch w.1) w.2 : ℚ) + alpha) /
    ((counterTotal (chainGet ch w.1) : ℚ) + alpha * V)

/-- One iteration of the scoring loop instrumented to record the
denominator `total_count + alpha * vocab_size` it divides by. -/
def scoreDenomsStep (V alpha : ℚ) (acc : List ℚ × Chain) (w : Context × String) :
    List ℚ × Chain :=
  (acc.1 ++ [((counterTotal (chainGetOrCreate acc.2 w.1).1 : ℚ) + alpha * V)],
    (chainGetOrCreate acc.2 w.1).2)

/-- The list of denominators encountered while scoring `candidate`, in
loop order. -/
def scoreDenoms (candidate : String) (ch : Chain) (order : Nat) (V alpha : ℚ) :
    List ℚ :=
  ((windowsOf order (padTokens order (tokenize candidate))).foldl
    (scoreDenomsStep V alpha) ([], ch)).1

/-- One iteration of the filtering loop of `main` (sparks.py lines 266-270):
score the candidate against the (threaded, possibly autovivified) chain and
append it to `scored_candidates` when `prob >= threshold_probability`. -/
def filterStep (V alpha threshold : ℚ) (acc : List (String × ℚ) × Chain)
    (c : String) : List (String × ℚ) × Chain :=
  ((if threshold ≤ (candidateProbabilityS c acc.2 2 V alpha).1 then
      acc.1 ++ [(c, (candidateProbabilityS c acc.2 2 V alpha).1)]
    else acc.1),
    (candidateProbabilityS c acc.2 2 V alpha).2)

/-- The filtering loop of `main` (sparks.py lines 266-270): the list of
retained `(candidate, probability)` pairs and the final chain state. -/
def scoreFilterS (cands : List String) (ch : Chain) (V alpha threshold : ℚ) :
    List (String × ℚ) × Chain :=
  cands.foldl (filterStep V alpha threshold) ([], ch)

/-- Source function `validate_candidate` (sparks.py lines 89-103), abstracted over the HTTP
outcome: `some code` when `requests.get` returns a response with that
status, `none` when it raises (the bare `except Exception` treats every
failure kind uniformly).  Returns the `(is_valid, status)` pair. -/
def validate_candidate (resp : Option Nat) : Bool × Option Nat :=
  match resp with
  | some code => if code ∈ [200, 401, 403] then (true, some code) else (false, some code)
  | none => (false, none)

/-! ### Association-list lemmas for the chain and its counters -/

lemma chainGetOrCreate_fst (ch : Chain) (key : Context) :
    (chainGetOrCreate ch key).1 = chainGet ch key := by
  induction ch with
  | nil => rfl
  | cons p rest ih =>
      obtain ⟨k, cnt⟩ := p
      by_cases h : k = key
      · simp [chainGetOrCreate, chainGet, h]
      · simp [chainGetOrCreate, chainGet, h, ih]

lemma chainGet_getOrCreate (ch : Chain) (key c : Context) :
    chainGet (chainGetOrCreate ch key).2 c = chainGet ch c := by
  induction ch with
  | nil =>
      by_cases h : key = c
      · simp [chainGetOrCreate, chainGet, h]
      · simp [chainGetOrCreate, chainGet, h]
  | cons p rest ih =>
      obtain ⟨k, cnt⟩ := p
      by_cases h : k = key
      · simp [chainGetOrCreate, h]
      · by_cases h2 : k = c
        · subst h2
          simp [chainGetOrCreate, chainGet, h]
        · simp [chainGetOrCreate, chainGet, h, h2, ih]

lemma mem_getOrCreate (ch : Chain) (key : Context) (p : Context × Counter)
    (hp : p ∈ ch) : p ∈ (chainGetOrCreate ch key).2 := by
  induction ch with
  | nil => cases hp
  | cons q rest ih =>
      obtain ⟨k, cnt⟩ := q
      by_cases h : k = key
      · simpa [chainGetOrCreate, h] using hp
      · rcases List.mem_cons.mp hp with h1 | h1
        · simp [chainGetOrCreate, h, h1]
        · simp only [chainGetOrCreate, if_neg h, List.mem_cons]
          exact Or.inr (ih h1)

lemma counterGet_le_counterTotal (cnt : Counter) (t : String) :
    counterGet cnt t ≤ counterTotal cnt := by
  induction cnt with
  | nil => simp [counterGet, counterTotal]
  | cons q rest ih =>
      obtain ⟨k, n⟩ := q
      by_cases h : k = t
      · simp only [counterGet, counterTotal, List.map_cons, List.sum_cons, if_pos h]
        exact Nat.le_add_right _ _
      · simp only [counterGet, counterTotal, List.map_cons, List.sum_cons, if_neg h]
        exact le_trans ih (Nat.le_add_left _ _)

/-! ### The scoring loop as a product of per-window factors

The state-passing fold of `candidate_probability` is shown to compute the
product of `windowFactor`s of the original chain: the defaultdict
autovivification performed along the way never changes any looked-up
counter, because a freshly inserted context maps to the empty counter,
which reads exactly like an absent key. -/

lemma foldl_scoreStep_ext (V alpha : ℚ) (ws : List (Context × String)) :
    ∀ (p : ℚ) (ch' ch : Chain), (∀ c, chainGet ch' c = chainGet ch c) →
      (ws.foldl (scoreStep V alpha) (p, ch')).1
          = p * (ws.map (windowFactor ch V alpha)).prod
        ∧ ∀ c, chainGet ((ws.foldl (scoreStep V alpha) (p, ch')).2) c = chainGet ch c := by
  induction ws with
  | nil => intro p ch' ch h; simpa using h
  | cons w rest ih =>
      intro p ch' ch h
      have hfst : (chainGetOrCreate ch' w.1).1 = chainGet ch w.1 := by
        rw [chainGetOrCreate_fst, h]
      have hstate : ∀ c, chainGet (chainGetOrCreate ch' w.1).2 c = chainGet ch c := by
        intro c; rw [chainGet_getOrCreate, h]
      have hstep : scoreStep V alpha (p, ch') w
          = (p * windowFactor ch V alpha w, (chainGetOrCreate ch' w.1).2) := by
        simp [scoreStep, windowFactor, hfst]
      rw [List.foldl_cons, hstep]
      obtain ⟨h1, h2⟩ := ih (p * windowFactor ch V alpha w) _ ch hstate
      refine ⟨?_, h2⟩
      rw [h1, List.map_cons, List.prod_cons, mul_assoc]

lemma candidate_probability_eq_prod (cand : String) (ch : Chain) (order : Nat)
    (V alpha : ℚ) :
    candidate_probability cand ch order V alpha
      = ((windowsOf order (padTokens order (tokenize cand))).map
          (windowFactor ch V alpha)).prod := by
  have h := (foldl_scoreStep_ext V alpha
    (windowsOf order (padTokens order (tokenize cand))) 1 ch ch (fun _ => rfl)).1
  simpa [candidate_probability, candidateProbabilityS] using h

lemma chainGet_after_score (cand : String) (ch : Chain) (order : Nat)
    (V alpha : ℚ) (c : Context) :
    chainGet (candidateProbabilityS cand ch order V alpha).2 c = chainGet ch c :=
  (foldl_scoreStep_ext V alpha _ 1 ch ch (fun _ => rfl)).2 c

lemma candidate_probability_congr (cand : String) (ch' ch : Chain) (order : Nat)
    (V alpha : ℚ) (h : ∀ c, chainGet ch' c = chainGet ch c) :
    candidate_probability cand ch' order V alpha
      = candidate_probability cand ch order V alpha := by
  have h1 := (foldl_scoreStep_ext V alpha
    (windowsOf order (padTokens order (tokenize cand))) 1 ch' ch h).1
  rw [candidate_probability_eq_prod cand ch order V alpha]
  simpa [candidate_probability, candidateProbabilityS] using h1

lemma mem_foldl_scoreStep (V alpha : ℚ) (ws : List (Context × String)) :
    ∀ (acc : ℚ × Chain) (p : Context × Counter), p ∈ acc.2 →
      p ∈ (ws.foldl (scoreStep V alpha) acc).2 := by
  induction ws with
  | nil => intro acc p hp; exact hp
  | cons w rest ih =>
      intro acc p hp
      rw [List.foldl_cons]
      exact ih _ p (mem_getOrCreate _ _ _ hp)

/-! ### Bounds on the smoothed factors -/

lemma windowFactor_pos (ch : Chain) (V alpha : ℚ) (w : Context × String)
    (hα : 0 < alpha) (hV : 1 ≤ V) : 0 < windowFactor ch V alpha w := by
  unfold windowFactor
  have hn : (0:ℚ) ≤ (counterGet (chainGet ch w.1) w.2 : ℚ) := by positivity
  have hm : (0:ℚ) ≤ (counterTotal (chainGet ch w.1) : ℚ) := by positivity
  have hαV : 0 < alpha * V := by nlinarith
  apply div_pos <;> linarith

lemma windowFactor_le_one (ch : Chain) (V alpha : ℚ) (w : Context × String)
    (hα : 0 < alpha) (hV : 1 ≤ V) : windowFactor ch V alpha w ≤ 1 := by
  unfold windowFactor
  have hm : (0:ℚ) ≤ (counterTotal (chainGet ch w.1) : ℚ) := by positivity
  have hαV : 0 < alpha * V := by nlinarith
  rw [div_le_one (by linarith)]
  have hle : (counterGet (chainGet ch w.1) w.2 : ℚ)
      ≤ (counterTotal (chainGet ch w.1) : ℚ) := by
    exact_mod_cast counterGet_le_counterTotal _ _
  nlinarith

lemma prod_mem_unit (l : List ℚ) (h : ∀ a ∈ l, 0 < a ∧ a ≤ 1) :
    0 < l.prod ∧ l.prod ≤ 1 := by
  induction l with
  | nil => simp
  | cons a rest ih =>
      obtain ⟨ha, ha1⟩ := h a (List.mem_cons_self a rest)
      obtain ⟨hp, hp1⟩ := ih (fun b hb => h b (List.mem_cons_of_mem a hb))
      rw [List.prod_cons]
      exact ⟨mul_pos ha hp, by nlinarith⟩

/-- Claim C4: for every candidate string, the score computed by
`candidate_probability` satisfies `0 < score ≤ 1` (taking, as in every
reachable scoring call of `main`, a positive smoothing constant and a
vocabulary size of at least 1), and scoring the same candidate a second
time against the same chain object — including the defaultdict
autovivification the first scoring performed on it — yields the identical
result. -/
theorem c4_score_valid_probability (cand : String) (ch : Chain) (order : Nat)
    (V alpha : ℚ) (hα : 0 < alpha) (hV : 1 ≤ V) :
    0 < candidate_probability cand ch order V alpha
    ∧ candidate_probability cand ch order V alpha ≤ 1
    ∧ candidate_probability cand (candidateProbabilityS cand ch order V alpha).2 order V alpha
        = candidate_probability cand ch order V alpha := by
  have hb : ∀ a ∈ (windowsOf order (padTokens order (tokenize cand))).map
      (windowFactor ch V alpha), 0 < a ∧ a ≤ 1 := by
    intro a ha
    obtain ⟨w, hw, rfl⟩ := List.mem_map.mp ha
    exact ⟨windowFactor_pos ch V alpha w hα hV, windowFactor_le_one ch V alpha w hα hV⟩
  obtain ⟨h1, h2⟩ := prod_mem_unit _ hb
  refine ⟨?_, ?_, candidate_probability_congr cand _ ch order V alpha
    (chainGet_after_score cand ch order V alpha)⟩
  · rw [candidate_probability_eq_prod]; exact h1
  · rw [candidate_probability_eq_prod]; exact h2

/-- Witness for C4 at a concrete chain and candidate. -/
theorem c4_score_valid_probability_witness :
    0 < candidate_probability "/x" (build_markov_chain [["api"]] 2) 2 2 1
    ∧ candidate_probability "/x" (build_markov_chain [["api"]] 2) 2 2 1 ≤ 1
    ∧ candidate_probability "/x"
        (candidateProbabilityS "/x" (build_markov_chain [["api"]] 2) 2 2 1).2 2 2 1
        = candidate_probability "/x" (build_markov_chain [["api"]] 2) 2 2 1 :=
  c4_score_valid_probability "/x" (build_markov_chain [["api"]] 2) 2 2 1
    (by norm_num) (by norm_num)

/-- Counterexample to claim C2 as stated: the chain is a
`defaultdict(Counter)`, and evaluating `candidate_probability` on a
candidate with a context never seen during construction inserts that
context as a new key (mapped to an empty counter).  Concretely, scoring
`"/zzz"` against the chain built from the single seed sequence `["api"]`
adds the key `("<START>", "zzz")`, so the chain object after scoring is
not equal to the chain as built. -/
theorem c2_chain_readonly_counterexample :
    chainContains (build_markov_chain [["api"]] 2) ["<START>", "zzz"] = false
    ∧ chainContains (candidateProbabilityS "/zzz" (build_markov_chain [["api"]] 2) 2 2 1).2
        ["<START>", "zzz"] = true
    ∧ (candidateProbabilityS "/zzz" (build_markov_chain [["api"]] 2) 2 2 1).2
        ≠ build_markov_chain [["api"]] 2 := by
  refine ⟨by decide, by decide, by decide⟩

/-- Claim C2 (amended): evaluating the scorer against a built chain leaves
the chain mapping extensionally unchanged — every Context still maps to
exactly the same counter, so no counts are modified and no count is added —
and every existing entry is preserved verbatim; however, the scorer is not
strictly read-only on the key set: a scoring window whose Context is absent
inserts that Context with an empty counter (defaultdict autovivification). -/
theorem c2_chain_readonly_amended (cand : String) (ch : Chain) (order : Nat)
    (V alpha : ℚ) :
    (∀ c, chainGet (candidateProbabilityS cand ch order V alpha).2 c = chainGet ch c)
    ∧ ∀ p ∈ ch, p ∈ (candidateProbabilityS cand ch order V alpha).2 := by
  refine ⟨chainGet_after_score cand ch order V alpha, ?_⟩
  intro p hp
  exact mem_foldl_scoreStep V alpha _ (1, ch) p hp

/-- Witness for C2 (amended) at a concrete chain and candidate: after
scoring `"/zzz"`, the autovivified key still reads as the empty counter and
the original entries are still present. -/
theorem c2_chain_readonly_amended_witness :
    chainGet (candidateProbabilityS "/zzz" (build_markov_chain [["api"]] 2) 2 2 1).2
        ["<START>", "zzz"]
      = chainGet (build_markov_chain [["api"]] 2) ["<START>", "zzz"]
    ∧ (["<START>", "<START>"], [("api", 1)])
        ∈ (candidateProbabilityS "/zzz" (build_markov_chain [["api"]] 2) 2 2 1).2 :=
  ⟨(c2_chain_readonly_amended "/zzz" (build_markov_chain [["api"]] 2) 2 2 1).1
      ["<START>", "zzz"],
    (c2_chain_readonly_amended "/zzz" (build_markov_chain [["api"]] 2) 2 2 1).2
      (["<START>", "<START>"], [("api", 1)]) (by decide)⟩

/-! ### Unseen contexts in the scorer (claim C7) -/

lemma chainGet_eq_nil_of_not_contains (ch : Chain) (key : Context)
    (h : chainContains ch key = false) : chainGet ch key = [] := by
  induction ch with
  | nil => rfl
  | cons p rest ih =>
      obtain ⟨k, cnt⟩ := p
      simp only [chainContains, List.any_cons, Bool.or_eq_false_iff,
        decide_eq_false_iff_not] at h
      simp only [chainGet, if_neg h.1]
      exact ih h.2

/-- Claim C7: the probability of a candidate is the product of its
per-window smoothed factors, and every window whose Context was never
observed during chain construction contributes the factor
`alpha / (alpha * vocab_size) = 1 / vocab_size` — its `observed_count` and
`total_count` both read as 0 — rather than raising an error. -/
theorem c7_unseen_context_factor (cand : String) (ch : Chain) (order : Nat)
    (V alpha : ℚ) (hα : alpha ≠ 0) :
    candidate_probability cand ch order V alpha
      = ((windowsOf order (padTokens order (tokenize cand))).map
          (windowFactor ch V alpha)).prod
    ∧ ∀ w ∈ windowsOf order (padTokens order (tokenize cand)),
        chainContains ch w.1 = false →
          windowFactor ch V alpha w = alpha / (alpha * V)
          ∧ windowFactor ch V alpha w = 1 / V := by
  refine ⟨candidate_probability_eq_prod cand ch order V alpha, ?_⟩
  intro w _ hc
  have hg : chainGet ch w.1 = [] := chainGet_eq_nil_of_not_contains ch w.1 hc
  have hf : windowFactor ch V alpha w = alpha / (alpha * V) := by
    unfold windowFactor
    rw [hg]
    simp [counterGet, counterTotal]
  refine ⟨hf, ?_⟩
  rw [hf]
  rcases eq_or_ne V 0 with hV | hV
  · simp [hV]
  · field_simp

/-- Witness for C7: scoring `"/zzz"` against the chain built from the seed
sequence `["api"]` meets the unseen context `("<START>", "zzz")`, whose
factor is `alpha / (alpha * V) = 1 / V` (here with `alpha = 1`, `V = 2`). -/
theorem c7_unseen_context_factor_witness :
    windowFactor (build_markov_chain [["api"]] 2) 2 1 (["<START>", "zzz"], "<END>")
        = 1 / (1 * 2)
    ∧ windowFactor (build_markov_chain [["api"]] 2) 2 1 (["<START>", "zzz"], "<END>")
        = 1 / 2 :=
  (c7_unseen_context_factor "/zzz" (build_markov_chain [["api"]] 2) 2 2 1
      (by norm_num)).2
    (["<START>", "zzz"], "<END>") (by decide) (by decide)

/-! ### Normalization (claims C3 and C9) -/

lemma lowerHexOrDash_cases (c : Char) (h : isLowerHexOrDash c = true) :
    specHexDigit c = true ∨ c = '-' := by
  simp only [isLowerHexOrDash, Bool.or_eq_true, beq_iff_eq] at h
  rcases h with (h | h) | h
  · exact Or.inl (by simp [specHexDigit, h])
  · exact Or.inl (by simp [specHexDigit, h])
  · exact Or.inr h

lemma isDigit_specHexDigit (c : Char) (h : c.isDigit = true) :
    specHexDigit c = true := by
  simp [specHexDigit, h]

/-- Counterexample to claim C3 as stated: the source regex
`[a-f0-9\-]{36}` contains only the lowercase hex range, so a 36-character
token drawn from (uppercase) hex digits and hyphens that the claim asserts
maps to `<uuid>` is in fact returned unchanged. -/
theorem c3_uuid_counterexample :
    ("ABCDEF00-0000-0000-0000-000000000000" : String).data.length = 36
    ∧ (∀ c ∈ ("ABCDEF00-0000-0000-0000-000000000000" : String).data,
        specHexDigit c = true ∨ c = '-')
    ∧ ¬(∀ c ∈ ("ABCDEF00-0000-0000-0000-000000000000" : String).data, c.isDigit)
    ∧ normalize_token "ABCDEF00-0000-0000-0000-000000000000" ≠ "<uuid>" := by
  refine ⟨by decide, by decide, by decide, by decide⟩

/-- Claim C3 (amended): for every token of exactly 36 characters drawn from
lowercase hex digits, decimal digits and hyphens (and not consisting
entirely of decimal digits), `normalize_token` returns `<uuid>`; and for
every 36-character token containing a character that is neither a hex digit
(of either case) nor a hyphen, `normalize_token` returns the token
unchanged. -/
theorem c3_uuid_normalization_amended (t : String) :
    (t.data.length = 36 → (∀ c ∈ t.data, isLowerHexOrDash c) →
      ¬(∀ c ∈ t.data, c.isDigit) → normalize_token t = "<uuid>")
    ∧ (t.data.length = 36 → (∃ c ∈ t.data, ¬(specHexDigit c = true ∨ c = '-')) →
      normalize_token t = t) := by
  constructor
  · intro h36 hall hnd
    unfold normalize_token
    rw [if_neg (fun hx => hnd hx.2), if_pos ⟨h36, hall⟩]
  · rintro h36 ⟨c, hc, hbad⟩
    unfold normalize_token
    rw [if_neg, if_neg]
    · rintro ⟨_, hall⟩
      exact hbad (lowerHexOrDash_cases c (hall c hc))
    · rintro ⟨_, hd⟩
      exact hbad (Or.inl (isDigit_specHexDigit c (hd c hc)))

/-- Witness for C3 (amended): a lowercase 36-character hex/hyphen token
maps to `<uuid>`, and a 36-character token containing `'z'` is returned
unchanged. -/
theorem c3_uuid_normalization_amended_witness :
    normalize_token "abcdef00-0000-0000-0000-000000000000" = "<uuid>"
    ∧ normalize_token "zbcdef00-0000-0000-0000-000000000000"
        = "zbcdef00-0000-0000-0000-000000000000" :=
  ⟨(c3_uuid_normalization_amended "abcdef00-0000-0000-0000-000000000000").1
      (by decide) (by decide) (by decide),
    (c3_uuid_normalization_amended "zbcdef00-0000-0000-0000-000000000000").2
      (by decide) ⟨'z', by decide, by decide⟩⟩

/-- Claim C9: token normalization is idempotent —
`normalize_token (normalize_token t) = normalize_token t` for every token —
and the reserved outputs `<id>` and `<uuid>` are fixed points. -/
theorem c9_normalize_idempotent (t : String) :
    normalize_token (normalize_token t) = normalize_token t
    ∧ normalize_token "<id>" = "<id>"
    ∧ normalize_token "<uuid>" = "<uuid>" := by
  have hid : normalize_token "<id>" = "<id>" := by decide
  have huuid : normalize_token "<uuid>" = "<uuid>" := by decide
  refine ⟨?_, hid, huuid⟩
  by_cases h1 : t.data ≠ [] ∧ ∀ c ∈ t.data, c.isDigit
  · have ht : normalize_token t = "<id>" := by
      unfold normalize_token
      rw [if_pos h1]
    rw [ht, hid]
  · by_cases h2 : t.data.length = 36 ∧ ∀ c ∈ t.data, isLowerHexOrDash c
    · have ht : normalize_token t = "<uuid>" := by
        unfold normalize_token
        rw [if_neg h1, if_pos h2]
      rw [ht, huuid]
    · have ht : normalize_token t = t := by
        unfold normalize_token
        rw [if_neg h1, if_neg h2]
      rw [ht, ht]

/-- Claim C6: `validate_candidate` classifies a probed candidate as valid
iff the HTTP response status is one of 200, 401, 403; any other status
yields invalid paired with that status; and any raised network/transport
failure (modelled by the absent outcome `none`, covering every exception
kind uniformly) yields invalid with no status. -/
theorem c6_validator_classification (resp : Option Nat) :
    ((validate_candidate resp).1 = true
        ↔ ∃ s, resp = some s ∧ (s = 200 ∨ s = 401 ∨ s = 403))
    ∧ (∀ s, resp = some s → (validate_candidate resp).2 = some s)
    ∧ (resp = none → validate_candidate resp = (false, none)) := by
  rcases resp with _ | code
  · refine ⟨?_, ?_, fun _ => rfl⟩
    · simp [validate_candidate]
    · intro s hs; cases hs
  · refine ⟨?_, ?_, ?_⟩
    · by_cases h : code ∈ [200, 401, 403]
      · simp only [validate_candidate, if_pos h]
        simp only [List.mem_cons, List.not_mem_nil, or_false] at h
        simp only [true_iff]
        exact ⟨code, rfl, h⟩
      · simp only [validate_candidate, if_neg h]
        simp only [List.mem_cons, List.not_mem_nil, or_false] at h
        constructor
        · intro hf; cases hf
        · rintro ⟨s, hs, hor⟩
          cases hs
          exact absurd hor h
    · intro s hs
      cases hs
      simp only [validate_candidate]
      split <;> rfl
    · intro hn; cases hn

/-- Witness for C6: a 401 response is valid, a 404 response is not, and a
network failure yields invalid with no status. -/
theorem c6_validator_classification_witness :
    (validate_candidate (some 401)).1 = true
    ∧ ¬((validate_candidate (some 404)).1 = true)
    ∧ validate_candidate none = (false, none) := by
  refine ⟨(c6_validator_classification (some 401)).1.mpr
      ⟨401, rfl, by norm_num⟩, ?_, (c6_validator_classification none).2.2 rfl⟩
  intro h
  obtain ⟨s, hs, hor⟩ := (c6_validator_classification (some 404)).1.mp h
  cases hs
  rcases hor with h | h | h <;> omega

/-! ### The candidate generator's lookup context (claim C1) -/

lemma windowsOf_key_length (order : Nat) :
    ∀ (l : List String) (w : Context × String), w ∈ windowsOf order l →
      w.1.length = order := by
  intro l
  induction l with
  | nil => intro w hw; simp [windowsOf] at hw
  | cons t rest ih =>
      intro w hw
      by_cases h : order < (t :: rest).length
      · rw [windowsOf, dif_pos h] at hw
        rcases List.mem_cons.mp hw with h1 | h1
        · subst h1
          simp only [List.length_take]
          omega
        · exact ih w h1
      · rw [windowsOf, dif_neg h] at hw
        cases hw

lemma mem_chainIncr_keys (ch : Chain) (key : Context) (t : String) :
    ∀ p ∈ chainIncr ch key t, p.1 = key ∨ p.1 ∈ ch.map Prod.fst := by
  induction ch with
  | nil =>
      intro p hp
      simp only [chainIncr, List.mem_singleton] at hp
      subst hp
      exact Or.inl rfl
  | cons q rest ih =>
      obtain ⟨k, cnt⟩ := q
      intro p hp
      by_cases h : k = key
      · rw [chainIncr, if_pos h] at hp
        rcases List.mem_cons.mp hp with h1 | h1
        · subst h1; exact Or.inl h
        · exact Or.inr (List.mem_cons_of_mem k (List.mem_map_of_mem Prod.fst h1))
      · rw [chainIncr, if_neg h] at hp
        rcases List.mem_cons.mp hp with h1 | h1
        · subst h1
          exact Or.inr (List.mem_cons_self k _)
        · rcases ih p h1 with h2 | h2
          · exact Or.inl h2
          · exact Or.inr (List.mem_cons_of_mem k h2)

lemma mem_addWindows_keys (ws : List (Context × String)) :
    ∀ (ch : Chain) (p : Context × Counter), p ∈ addWindows ch ws →
      p.1 ∈ ch.map Prod.fst ∨ ∃ w ∈ ws, p.1 = w.1 := by
  induction ws with
  | nil => intro ch p hp; exact Or.inl (List.mem_map_of_mem Prod.fst hp)
  | cons w rest ih =>
      intro ch p hp
      rcases ih (chainIncr ch w.1 w.2) p hp with h1 | h1
      · obtain ⟨q, hq, hqe⟩ := List.mem_map.mp h1
        rcases mem_chainIncr_keys ch w.1 w.2 q hq with h2 | h2
        · exact Or.inr ⟨w, List.mem_cons_self w rest, by rw [← hqe, h2]⟩
        · exact Or.inl (by rw [← hqe]; exact h2)
      · obtain ⟨w', hw', he⟩ := h1
        exact Or.inr ⟨w', List.mem_cons_of_mem w hw', he⟩

lemma build_markov_chain_key_length (token_sequences : List (List String))
    (order : Nat) : ∀ p ∈ build_markov_chain token_sequences order,
      p.1.length = order := by
  suffices h : ∀ (ch : Chain),
      (∀ p ∈ ch, p.1.length = order) →
      ∀ p ∈ token_sequences.foldl
        (fun ch tokens => addWindows ch (windowsOf order (padTokens order tokens))) ch,
        p.1.length = order by
    intro p hp
    exact h [] (by intro p hp; cases hp) p hp
  induction token_sequences with
  | nil => intro ch hch p hp; exact hch p hp
  | cons s rest ih =>
      intro ch hch p hp
      rw [List.foldl_cons] at hp
      refine ih (addWindows ch (windowsOf order (padTokens order s))) ?_ p hp
      intro q hq
      rcases mem_addWindows_keys _ ch q hq with h1 | h1
      · obtain ⟨r, hr, hre⟩ := List.mem_map.mp h1
        rw [← hre]; exact hch r hr
      · obtain ⟨w, hw, he⟩ := h1
        rw [he]; exact windowsOf_key_length order _ w hw

lemma chainContains_eq_false_of_length_ne (ch : Chain) (key : Context)
    (h : ∀ p ∈ ch, p.1.length ≠ key.length) : chainContains ch key = false := by
  rw [chainContains, List.any_eq_false]
  intro p hp
  simp only [decide_eq_true_eq]
  intro he
  exact h p hp (by rw [he])

lemma predict_next_tokens_of_not_contains (ch : Chain) (cur : List String)
    (n : Nat) (h : chainContains ch cur = false) :
    predict_next_tokens ch cur n = [] := by
  simp [predict_next_tokens, h]

/-- Counterexample to claim C1 as stated: at position `i = 0` with
`order = 2`, the lookup context computed by `generate_candidates` for the
sequence `["api", "users"]` is the single-token state `("api")`, not the
`<START>`-padded context `("<START>", "api")`; since every chain key has
length 2, the lookup finds nothing and no predictions are returned there,
even though the chain does hold predictions for `("<START>", "api")`. -/
theorem c1_lookup_context_counterexample :
    lookupContext ["api", "users"] 0 2 = ["api"]
    ∧ lookupContext ["api", "users"] 0 2 ≠ ["<START>", "api"]
    ∧ predict_next_tokens (build_markov_chain [["api", "users"]] 2)
        (lookupContext ["api", "users"] 0 2) 3 = []
    ∧ predict_next_tokens (build_markov_chain [["api", "users"]] 2)
        ["<START>", "api"] 3 ≠ [] := by
  refine ⟨by decide, by decide, by decide, by decide⟩

/-- Claim C1 (amended): in candidate generation, the lookup context used to
query the chain at position `i` consists of the `min(order, i+1)` trailing
tokens ending at `i`, looked up as-is with no `<START>` left-padding; when
`i + 1 < order` the context is therefore shorter than `order` and — every
key of a built chain having length exactly `order` — the chain lookup finds
nothing, so no predictions are returned at such positions. -/
theorem c1_lookup_context_amended (tokens : List String) (i order : Nat)
    (hi : i < tokens.length) :
    (lookupContext tokens i order).length = min order (i + 1)
    ∧ lookupContext tokens i order <:+ tokens.take (i + 1)
    ∧ ∀ (token_sequences : List (List String)), i + 1 < order →
        predict_next_tokens (build_markov_chain token_sequences order)
          (lookupContext tokens i order) 3 = [] := by
  have hlen : (lookupContext tokens i order).length = min order (i + 1) := by
    simp only [lookupContext, List.length_drop, List.length_take]
    omega
  refine ⟨hlen, List.drop_suffix _ _, ?_⟩
  intro token_sequences hio
  apply predict_next_tokens_of_not_contains
  apply chainContains_eq_false_of_length_ne
  intro p hp
  rw [build_markov_chain_key_length token_sequences order p hp, hlen]
  omega

/-- Witness for C1 (amended) at the concrete sequence `["api", "users"]`,
position 0, order 2. -/
theorem c1_lookup_context_amended_witness :
    (lookupContext ["api", "users"] 0 2).length = min 2 1
    ∧ predict_next_tokens (build_markov_chain [["api", "users"]] 2)
        (lookupContext ["api", "users"] 0 2) 3 = [] :=
  ⟨(c1_lookup_context_amended ["api", "users"] 0 2 (by norm_num)).1,
    (c1_lookup_context_amended ["api", "users"] 0 2 (by norm_num)).2.2
      [["api", "users"]] (by norm_num)⟩

/-! ### Count conservation in the chain (claim C5) -/

lemma counterTotal_cons (k : String) (n : Nat) (rest : Counter) :
    counterTotal ((k, n) :: rest) = n + counterTotal rest := rfl

lemma counterTotal_counterIncr (cnt : Counter) (t : String) :
    counterTotal (counterIncr cnt t) = counterTotal cnt + 1 := by
  induction cnt with
  | nil => rfl
  | cons q rest ih =>
      obtain ⟨k, n⟩ := q
      by_cases h : k = t
      · rw [counterIncr, if_pos h, counterTotal_cons, counterTotal_cons]
        omega
      · rw [counterIncr, if_neg h, counterTotal_cons, counterTotal_cons, ih]
        omega

lemma chainGet_chainIncr (ch : Chain) (key : Context) (t : String) (c : Context) :
    chainGet (chainIncr ch key t) c
      = if c = key then counterIncr (chainGet ch key) t else chainGet ch c := by
  induction ch with
  | nil =>
      by_cases h : c = key
      · subst h
        simp [chainIncr, chainGet]
      · have h2 : ¬(key = c) := fun he => h he.symm
        simp [chainIncr, chainGet, h, h2]
  | cons q rest ih =>
      obtain ⟨k, cnt⟩ := q
      by_cases hk : k = key
      · subst hk
        by_cases hc : c = k
        · subst hc
          simp [chainIncr, chainGet]
        · have hc2 : ¬(k = c) := fun he => hc he.symm
          simp [chainIncr, chainGet, hc, hc2]
      · by_cases hc : k = c
        · subst hc
          simp [chainIncr, chainGet, hk]
        · simp [chainIncr, chainGet, hk, hc, ih]

lemma addWindows_total (ws : List (Context × String)) :
    ∀ (ch : Chain) (c : Context),
      counterTotal (chainGet (addWindows ch ws) c)
        = counterTotal (chainGet ch c)
          + ws.countP (fun w => decide (w.1 = c)) := by
  induction ws with
  | nil => intro ch c; simp [addWindows]
  | cons w rest ih =>
      intro ch c
      show counterTotal (chainGet (addWindows (chainIncr ch w.1 w.2) rest) c) = _
      rw [ih, chainGet_chainIncr]
      by_cases hc : c = w.1
      · subst hc
        rw [if_pos rfl, counterTotal_counterIncr,
          List.countP_cons_of_pos _ _ (by simp)]
        omega
      · rw [if_neg hc, List.countP_cons_of_neg _ _
          (by simp only [decide_eq_true_eq]; exact fun he => hc he.symm)]

lemma build_markov_chain_eq_addWindows (token_sequences : List (List String))
    (order : Nat) :
    build_markov_chain token_sequences order
      = addWindows []
          (token_sequences.flatMap (fun ts => windowsOf order (padTokens order ts))) := by
  suffices h : ∀ ch : Chain,
      token_sequences.foldl
          (fun ch tokens => addWindows ch (windowsOf order (padTokens order tokens))) ch
        = addWindows ch
            (token_sequences.flatMap (fun ts => windowsOf order (padTokens order ts))) by
    exact h []
  induction token_sequences with
  | nil => intro ch; rfl
  | cons s rest ih =>
      intro ch
      rw [List.foldl_cons, ih, List.flatMap_cons]
      show _ = (windowsOf order (padTokens order s)
          ++ rest.flatMap (fun ts => windowsOf order (padTokens order ts))).foldl
          (fun c w => chainIncr c w.1 w.2) ch
      rw [List.foldl_append]
      rfl

/-- Claim C5: for every list of seed token sequences and every Context `c`,
the sum of the counts stored under `c` in the chain built with order `k`
equals the number of times `c` occurred as the first `k` tokens of a
length-`(k+1)` window across all padded sequences (each sequence padded
with `k` `<START>` tokens in front and one `<END>` token at the back).
This holds for every `c` — for contexts not present in the chain both
sides are 0. -/
theorem c5_chain_count_conservation (token_sequences : List (List String))
    (order : Nat) (c : Context) :
    counterTotal (chainGet (build_markov_chain token_sequences order) c)
      = (token_sequences.flatMap
          (fun ts => windowsOf order (padTokens order ts))).countP
          (fun w => decide (w.1 = c)) := by
  rw [build_markov_chain_eq_addWindows]
  rw [addWindows_total]
  simp [chainGet, counterTotal]

/-! ### Threshold filtering (claim C8) -/

lemma foldl_filterStep_ext (V alpha threshold : ℚ) (cands : List String) :
    ∀ (acc : List (String × ℚ)) (ch' ch : Chain),
      (∀ x, chainGet ch' x = chainGet ch x) →
      (cands.foldl (filterStep V alpha threshold) (acc, ch')).1
        = acc ++ (cands.filter
            (fun c => decide (threshold ≤ candidate_probability c ch 2 V alpha))).map
            (fun c => (c, candidate_probability c ch 2 V alpha)) := by
  induction cands with
  | nil => intro acc ch' ch h; simp
  | cons c rest ih =>
      intro acc ch' ch h
      have hsc : (candidateProbabilityS c ch' 2 V alpha).1
          = candidate_probability c ch 2 V alpha :=
        candidate_probability_congr c ch' ch 2 V alpha h
      have hst : ∀ x, chainGet (candidateProbabilityS c ch' 2 V alpha).2 x
          = chainGet ch x := by
        intro x
        rw [chainGet_after_score, h]
      have hstep : filterStep V alpha threshold (acc, ch') c
          = ((if threshold ≤ candidate_probability c ch 2 V alpha then
                acc ++ [(c, candidate_probability c ch 2 V alpha)]
              else acc),
              (candidateProbabilityS c ch' 2 V alpha).2) := by
        simp only [filterStep, hsc]
      rw [List.foldl_cons, hstep]
      by_cases hth : threshold ≤ candidate_probability c ch 2 V alpha
      · rw [if_pos hth, ih _ _ ch hst, List.filter_cons]
        simp [hth]
      · rw [if_neg hth, ih _ _ ch hst, List.filter_cons]
        simp [hth]

/-- Claim C8: threshold filtering in `main` is inclusive — for every
candidate in the scored pool and every caller threshold, the candidate is
retained (appears in `scored_candidates`) exactly when its probability is
greater than or equal to the threshold; in particular a candidate whose
score equals the threshold is retained and one strictly below is
dropped. -/
theorem c8_threshold_filter_inclusive (cands : List String) (ch : Chain)
    (V alpha threshold : ℚ) (c : String) (hc : c ∈ cands) :
    (∃ p, (c, p) ∈ (scoreFilterS cands ch V alpha threshold).1)
      ↔ threshold ≤ candidate_probability c ch 2 V alpha := by
  have hrw : (scoreFilterS cands ch V alpha threshold).1
      = (cands.filter
          (fun c => decide (threshold ≤ candidate_probability c ch 2 V alpha))).map
          (fun c => (c, candidate_probability c ch 2 V alpha)) := by
    have h := foldl_filterStep_ext V alpha threshold cands [] ch ch (fun _ => rfl)
    simpa [scoreFilterS] using h
  rw [hrw]
  constructor
  · rintro ⟨p, hp⟩
    obtain ⟨c', hc', heq⟩ := List.mem_map.mp hp
    have hcc : c' = c := congrArg Prod.fst heq
    subst hcc
    have h := List.of_mem_filter hc'
    simpa using h
  · intro h
    refine ⟨candidate_probability c ch 2 V alpha, List.mem_map.mpr ⟨c, ?_, rfl⟩⟩
    exact List.mem_filter.mpr ⟨hc, by simpa using h⟩

/-- Witness for C8 at the inclusive boundary: with the threshold set to the
candidate's own score, the candidate is retained. -/
theorem c8_threshold_filter_inclusive_witness :
    ∃ p, ("/x", p) ∈ (scoreFilterS ["/x"] (build_markov_chain [["api"]] 2) 2 1
        (candidate_probability "/x" (build_markov_chain [["api"]] 2) 2 2 1)).1 :=
  (c8_threshold_filter_inclusive ["/x"] (build_markov_chain [["api"]] 2) 2 1
      (candidate_probability "/x" (build_markov_chain [["api"]] 2) 2 2 1) "/x"
      (by simp)).mpr le_rfl

/-! ### Vocabulary and denominator safety (claim C10) -/

lemma get_append_singleton (l : List String) (e : String)
    (h : l.length < (l ++ [e]).length) :
    (l ++ [e]).get ⟨l.length, h⟩ = e := by
  induction l with
  | nil => rfl
  | cons t rest ih => exact ih (by simp)

lemma windowsOf_append_end (order : Nat) :
    ∀ (l : List String) (e : String), order ≤ l.length →
      ∃ w ∈ windowsOf order (l ++ [e]), w.2 = e := by
  intro l
  induction l with
  | nil =>
      intro e h
      have h0 : order = 0 := Nat.le_zero.mp h
      subst h0
      refine ⟨(([] : List String), e), ?_, rfl⟩
      simp [windowsOf]
  | cons t rest ih =>
      intro e h
      by_cases h2 : order ≤ rest.length
      · obtain ⟨w, hw, he⟩ := ih e h2
        refine ⟨w, ?_, he⟩
        have hlt : order < (t :: (rest ++ [e])).length := by
          simp
          omega
        rw [List.cons_append, windowsOf, dif_pos hlt]
        exact List.mem_cons_of_mem _ hw
      · have ho : order = rest.length + 1 := by
          simp only [List.length_cons] at h
          omega
        subst ho
        have hlt : (rest.length + 1) < (t :: (rest ++ [e])).length := by
          simp
        refine ⟨((t :: (rest ++ [e])).take (rest.length + 1),
            (t :: (rest ++ [e])).get ⟨rest.length + 1, hlt⟩), ?_, ?_⟩
        · rw [List.cons_append, windowsOf, dif_pos hlt]
          exact List.mem_cons_self _ _
        · exact get_append_singleton (t :: rest) e hlt

lemma mem_vocabOf_iff (ch : Chain) (t : String) :
    t ∈ vocabOf ch ↔ ∃ p ∈ ch, t ∈ p.2.map Prod.fst := by
  simp [vocabOf, List.mem_dedup, List.mem_flatMap]

lemma counterIncr_keys_mono (cnt : Counter) (x s : String)
    (h : s ∈ cnt.map Prod.fst) : s ∈ (counterIncr cnt x).map Prod.fst := by
  induction cnt with
  | nil => cases h
  | cons q rest ih =>
      obtain ⟨k, n⟩ := q
      rw [List.map_cons] at h
      by_cases hk : k = x
      · rw [counterIncr, if_pos hk, List.map_cons]
        exact h
      · rw [counterIncr, if_neg hk, List.map_cons]
        rcases List.mem_cons.mp h with h1 | h1
        · exact h1 ▸ List.mem_cons_self _ _
        · exact List.mem_cons_of_mem _ (ih h1)

lemma self_mem_counterIncr_keys (cnt : Counter) (x : String) :
    x ∈ (counterIncr cnt x).map Prod.fst := by
  induction cnt with
  | nil => simp [counterIncr]
  | cons q rest ih =>
      obtain ⟨k, n⟩ := q
      by_cases hk : k = x
      · rw [counterIncr, if_pos hk, List.map_cons]
        simp [hk]
      · rw [counterIncr, if_neg hk, List.map_cons]
        exact List.mem_cons_of_mem _ ih

lemma vocabOf_chainIncr_mono (ch : Chain) (key : Context) (x t : String)
    (h : t ∈ vocabOf ch) : t ∈ vocabOf (chainIncr ch key x) := by
  rw [mem_vocabOf_iff] at h ⊢
  induction ch with
  | nil =>
      obtain ⟨p, hp, _⟩ := h
      cases hp
  | cons q rest ih =>
      obtain ⟨k, cnt⟩ := q
      obtain ⟨p, hp, ht⟩ := h
      by_cases hk : k = key
      · rw [chainIncr, if_pos hk]
        rcases List.mem_cons.mp hp with h1 | h1
        · subst h1
          exact ⟨(k, counterIncr cnt x), List.mem_cons_self _ _,
            counterIncr_keys_mono cnt x t ht⟩
        · exact ⟨p, List.mem_cons_of_mem _ h1, ht⟩
      · rw [chainIncr, if_neg hk]
        rcases List.mem_cons.mp hp with h1 | h1
        · exact ⟨p, h1 ▸ List.mem_cons_self _ _, ht⟩
        · obtain ⟨p', hp', ht'⟩ := ih ⟨p, h1, ht⟩
          exact ⟨p', List.mem_cons_of_mem _ hp', ht'⟩

lemma self_mem_vocabOf_chainIncr (ch : Chain) (key : Context) (x : String) :
    x ∈ vocabOf (chainIncr ch key x) := by
  rw [mem_vocabOf_iff]
  induction ch with
  | nil =>
      refine ⟨(key, counterIncr [] x), ?_, self_mem_counterIncr_keys [] x⟩
      simp [chainIncr]
  | cons q rest ih =>
      obtain ⟨k, cnt⟩ := q
      by_cases hk : k = key
      · rw [chainIncr, if_pos hk]
        exact ⟨(k, counterIncr cnt x), List.mem_cons_self _ _,
          self_mem_counterIncr_keys cnt x⟩
      · rw [chainIncr, if_neg hk]
        obtain ⟨p, hp, ht⟩ := ih
        exact ⟨p, List.mem_cons_of_mem _ hp, ht⟩

lemma vocabOf_addWindows_mono (ws : List (Context × String)) :
    ∀ (ch : Chain) (t : String), t ∈ vocabOf ch → t ∈ vocabOf (addWindows ch ws) := by
  induction ws with
  | nil => intro ch t h; exact h
  | cons w rest ih =>
      intro ch t h
      exact ih _ t (vocabOf_chainIncr_mono ch w.1 w.2 t h)

lemma next_mem_vocabOf_addWindows (ws : List (Context × String)) :
    ∀ (ch : Chain) (w : Context × String), w ∈ ws →
      w.2 ∈ vocabOf (addWindows ch ws) := by
  induction ws with
  | nil => intro ch w hw; cases hw
  | cons w0 rest ih =>
      intro ch w hw
      rcases List.mem_cons.mp hw with h1 | h1
      · subst h1
        exact vocabOf_addWindows_mono rest _ w.2 (self_mem_vocabOf_chainIncr ch w.1 w.2)
      · exact ih _ w h1

lemma foldl_scoreDenomsStep_ext (V alpha : ℚ) (ws : List (Context × String)) :
    ∀ (acc : List ℚ) (ch' ch : Chain), (∀ x, chainGet ch' x = chainGet ch x) →
      (ws.foldl (scoreDenomsStep V alpha) (acc, ch')).1
        = acc ++ ws.map
            (fun w => ((counterTotal (chainGet ch w.1) : ℚ) + alpha * V)) := by
  induction ws with
  | nil => intro acc ch' ch h; simp
  | cons w rest ih =>
      intro acc ch' ch h
      have hfst : (chainGetOrCreate ch' w.1).1 = chainGet ch w.1 := by
        rw [chainGetOrCreate_fst, h]
      have hstate : ∀ x, chainGet (chainGetOrCreate ch' w.1).2 x = chainGet ch x := by
        intro x
        rw [chainGet_getOrCreate, h]
      have hstep : scoreDenomsStep V alpha (acc, ch') w
          = (acc ++ [((counterTotal (chainGet ch w.1) : ℚ) + alpha * V)],
              (chainGetOrCreate ch' w.1).2) := by
        simp only [scoreDenomsStep, hfst]
      rw [List.foldl_cons, hstep, ih _ _ ch hstate]
      simp

lemma scoreDenoms_eq_map (cand : String) (ch : Chain) (order : Nat) (V alpha : ℚ) :
    scoreDenoms cand ch order V alpha
      = (windowsOf order (padTokens order (tokenize cand))).map
          (fun w => ((counterTotal (chainGet ch w.1) : ℚ) + alpha * V)) := by
  have h := foldl_scoreDenomsStep_ext V alpha
    (windowsOf order (padTokens order (tokenize cand))) [] ch ch (fun _ => rfl)
  simpa [scoreDenoms] using h

lemma windowsOf_ne_nil (order : Nat) (l : List String) (h : order < l.length) :
    windowsOf order l ≠ [] := by
  cases l with
  | nil => simp at h
  | cons t rest =>
      rw [windowsOf, dif_pos h]
      exact List.cons_ne_nil _ _

lemma padTokens_length (order : Nat) (tokens : List String) :
    (padTokens order tokens).length = order + tokens.length + 1 := by
  simp [padTokens]
  omega

/-- Claim C10: scoring is total under a non-empty-chain precondition — for
every chain built from at least one seed sequence, the vocabulary contains
`<END>`, so `vocab_size ≥ 1` and (with the pipeline's `alpha = 1`) every
denominator `total_count + alpha * vocab_size` met while scoring any
candidate is strictly positive; whereas against the chain built from no
sequences at all, whose `vocab_size` computes to 0, scoring any candidate
meets a denominator equal to 0 (the scorer's division by zero). -/
theorem c10_scoring_totality (token_sequences : List (List String)) (cand : String)
    (h : token_sequences ≠ []) :
    "<END>" ∈ vocabOf (build_markov_chain token_sequences 2)
    ∧ 1 ≤ vocab_size (build_markov_chain token_sequences 2)
    ∧ (∀ d ∈ scoreDenoms cand (build_markov_chain token_sequences 2) 2
          (vocab_size (build_markov_chain token_sequences 2) : ℚ) 1, 0 < d)
    ∧ ∃ d ∈ scoreDenoms cand (build_markov_chain [] 2) 2
          (vocab_size (build_markov_chain [] 2) : ℚ) 1, d = 0 := by
  obtain ⟨s, rest, rfl⟩ := List.exists_cons_of_ne_nil h
  have hEw : ∃ w ∈ windowsOf 2 (padTokens 2 s), w.2 = "<END>" := by
    have hle : 2 ≤ (List.replicate 2 "<START>" ++ s).length := by simp
    have h2 := windowsOf_append_end 2 (List.replicate 2 "<START>" ++ s) "<END>" hle
    simpa [padTokens, List.append_assoc] using h2
  have hE : "<END>" ∈ vocabOf (build_markov_chain (s :: rest) 2) := by
    obtain ⟨w, hw, he⟩ := hEw
    rw [build_markov_chain_eq_addWindows]
    have hmem : w ∈ (s :: rest).flatMap (fun ts => windowsOf 2 (padTokens 2 ts)) := by
      rw [List.flatMap_cons]
      exact List.mem_append_left _ hw
    have h3 := next_mem_vocabOf_addWindows _ [] w hmem
    rwa [he] at h3
  have hV : 1 ≤ vocab_size (build_markov_chain (s :: rest) 2) :=
    List.length_pos.mpr (List.ne_nil_of_mem hE)
  refine ⟨hE, hV, ?_, ?_⟩
  · intro d hd
    rw [scoreDenoms_eq_map] at hd
    obtain ⟨w, hw, rfl⟩ := List.mem_map.mp hd
    have h0 : (0:ℚ) ≤
        (counterTotal (chainGet (build_markov_chain (s :: rest) 2) w.1) : ℚ) := by
      positivity
    have h1 : (1:ℚ) ≤ (vocab_size (build_markov_chain (s :: rest) 2) : ℚ) := by
      exact_mod_cast hV
    nlinarith
  · have hne : windowsOf 2 (padTokens 2 (tokenize cand)) ≠ [] := by
      apply windowsOf_ne_nil
      rw [padTokens_length]
      omega
    obtain ⟨w, hw⟩ := List.exists_mem_of_ne_nil _ hne
    refine ⟨(counterTotal (chainGet (build_markov_chain [] 2) w.1) : ℚ)
        + 1 * (vocab_size (build_markov_chain [] 2) : ℚ), ?_, ?_⟩
    · rw [scoreDenoms_eq_map]
      exact List.mem_map_of_mem _ hw
    · simp [build_markov_chain, chainGet, counterTotal, vocab_size, vocabOf]

/-- Witness for C10 at a concrete seed list and candidate: the built
vocabulary contains `<END>`, has size at least 1, a concrete scoring
denominator is positive, and against the empty-seed chain the denominator 0
is encountered. -/
theorem c10_scoring_totality_witness :
    "<END>" ∈ vocabOf (build_markov_chain [["api"]] 2)
    ∧ 1 ≤ vocab_size (build_markov_chain [["api"]] 2)
    ∧ (0:ℚ) < (counterTotal (chainGet (build_markov_chain [["api"]] 2)
          ["<START>", "<START>"]) : ℚ)
        + 1 * (vocab_size (build_markov_chain [["api"]] 2) : ℚ)
    ∧ (0:ℚ) ∈ scoreDenoms "/x" (build_markov_chain [] 2) 2
        (vocab_size (build_markov_chain [] 2) : ℚ) 1 := by
  obtain ⟨h1, h2, h3, h4⟩ := c10_scoring_totality [["api"]] "/x" (by simp)
  refine ⟨h1, h2, ?_, ?_⟩
  · apply h3
    rw [scoreDenoms_eq_map]
    have hwmem : ((["<START>", "<START>"], "x") : Context × String)
        ∈ windowsOf 2 (padTokens 2 (tokenize "/x")) := by decide
    exact List.mem_map_of_mem _ hwmem
  · obtain ⟨d, hd, h0⟩ := h4
    rwa [h0] at hd
